import Mathlib

/-!
Shallow embedding of the sharded TTL cache in `src/cache.rs` of
bombsimon/codecrafters-redis-rust.

Modelling conventions:
* `std::time::Instant` and `Duration` are modelled as `Nat` (a monotonic clock).
* `Arc<CacheItem>` is modelled as a plain `CacheItem` value (entries are immutable
  once constructed, so sharing is unobservable).
* `HashMap<String, Arc<CacheItem>>` is modelled as a function `String → Option CacheItem`.
* `BinaryHeap<Arc<CacheItem>>` is modelled as the heap's backing array (a `List`),
  with `push`/`pop`/`peek` translated from the Rust standard library's sift
  algorithms, using the repository's hand-written `Ord for CacheItem`.
* Operations that can panic in Rust (indexing with `% 0`) return `Except`/`Option`
  with the error case standing for the panic.
-/

set_option autoImplicit false

/-- An entry stored in the cache, mirroring `struct CacheItem` in `src/cache.rs`:
a key, a value and an optional expiration instant. -/
structure CacheItem where
  key : String
  value : String
  expiration_time : Option Nat
deriving DecidableEq, Repr

/-- Rust's derived `Ord` for `Option<Instant>`: `None` is less than `Some`, and two
`Some`s compare by their contents. -/
def optionCmp : Option Nat → Option Nat → Ordering
  | none, none => .eq
  | none, some _ => .lt
  | some _, none => .gt
  | some a, some b => compare a b

/-- The hand-written `impl Ord for CacheItem` (src/cache.rs lines 24-32): when
`self.expiration_time` is `none` the result is `Less` unconditionally; otherwise the
result is `other.expiration_time.cmp(&self.expiration_time)`, i.e. the reversed
comparison of the optional expiration instants. -/
def CacheItem.cmp (a b : CacheItem) : Ordering :=
  if a.expiration_time = none then .lt
  else optionCmp b.expiration_time a.expiration_time

/-- Placeholder element for out-of-range reads of the heap array; every read performed
by the heap operations below is in range, so it is never actually consulted. -/
def defaultItem : CacheItem := ⟨"", "", none⟩

/-- Read position `i` of the heap's backing array. -/
def getI (l : List CacheItem) (i : Nat) : CacheItem := l.getD i defaultItem

/-- Swap the elements at positions `i` and `j` of the backing array. -/
def swapL (l : List CacheItem) (i j : Nat) : List CacheItem :=
  (l.set i (getI l j)).set j (getI l i)

/-- Rust `BinaryHeap::sift_up` (a max-heap under `CacheItem.cmp`): repeatedly swap the
element at `pos` with its parent while the element compares `Greater` than the parent,
stopping when `pos` reaches `start`. The standard library uses a hole to avoid
redundant moves; repeated swapping yields the same final array. -/
def siftUpFrom (l : List CacheItem) (start pos : Nat) : List CacheItem :=
  if start < pos then
    if CacheItem.cmp (getI l pos) (getI l ((pos - 1) / 2)) = .gt then
      siftUpFrom (swapL l pos ((pos - 1) / 2)) start ((pos - 1) / 2)
    else l
  else l
termination_by pos
decreasing_by omega

/-- The child index Rust's `sift_down_to_bottom` steps to from `pos` when both
children exist: `child += (get(child) <= get(child + 1))`, where the left child is
`2 * pos + 1` and `≤` means the comparator did not answer `Greater`. -/
def chooseChild (l : List CacheItem) (pos : Nat) : Nat :=
  if CacheItem.cmp (getI l (2 * pos + 1)) (getI l (2 * pos + 2)) ≠ .gt
  then 2 * pos + 2 else 2 * pos + 1

/-- First phase of Rust `BinaryHeap::sift_down_to_bottom`: walk the element at `pos`
down to a leaf, at each level swapping with the child selected by the comparator,
without comparing the moving element itself. Returns the rearranged array together
with the element's final position. -/
def siftToBottom (l : List CacheItem) (pos : Nat) : List CacheItem × Nat :=
  if 2 * pos + 2 < l.length then
    siftToBottom (swapL l pos (chooseChild l pos)) (chooseChild l pos)
  else if 2 * pos + 1 < l.length then
    (swapL l pos (2 * pos + 1), 2 * pos + 1)
  else (l, pos)
termination_by l.length - pos
decreasing_by
  simp only [swapL, List.length_set, chooseChild]
  split <;> omega

/-- Second phase of Rust `BinaryHeap::sift_down_to_bottom`: after taking the element
at `pos` to the bottom, sift it back up toward `pos`. -/
def siftDownToBottom (l : List CacheItem) (pos : Nat) : List CacheItem :=
  let r := siftToBottom l pos
  siftUpFrom r.1 pos r.2

/-- Rust `BinaryHeap::push`: append the element, then sift it up from the last
position with `start = 0`. -/
def heapPush (l : List CacheItem) (x : CacheItem) : List CacheItem :=
  siftUpFrom (l ++ [x]) 0 l.length

/-- Rust `BinaryHeap::peek`: the root of the backing array. -/
def heapPeek (l : List CacheItem) : Option CacheItem := l.head?

/-- Rust `BinaryHeap::pop`: remove the last element; if the heap is still non-empty,
swap it with the root and sift the new root down. Returns the old root and the
remaining heap. -/
def heapPop (l : List CacheItem) : Option (CacheItem × List CacheItem) :=
  match l.getLast? with
  | none => none
  | some last =>
    match l.dropLast with
    | [] => some (last, [])
    | r0 :: rest => some (r0, siftDownToBottom ((r0 :: rest).set 0 last) 0)

/-- The shard's key-to-entry mapping, modelling `HashMap<String, Arc<CacheItem>>`. -/
def ItemsMap := String → Option CacheItem

/-- An empty mapping. -/
def emptyItems : ItemsMap := fun _ => none

/-- Model of `HashMap::insert`: bind `k` to `v`, replacing any previous binding. -/
def insertItem (m : ItemsMap) (k : String) (v : CacheItem) : ItemsMap :=
  fun k' => if k' = k then some v else m k'

/-- Model of `HashMap::remove`: drop the binding of `k` (looking up the removed value is done
separately at the call sites). -/
def removeItem (m : ItemsMap) (k : String) : ItemsMap :=
  fun k' => if k' = k then none else m k'

/-- One cache partition, mirroring `struct Shard`: the eviction priority queue and the
authoritative key-to-entry mapping. -/
structure Shard where
  pq : List CacheItem
  items : ItemsMap

/-- Model of `Shard::new`: both collections start empty. -/
def Shard.new : Shard := ⟨[], emptyItems⟩

/-- Model of `Shard::set` (src/cache.rs lines 48-64): build the new entry with
`expiration_time = ttl.map (now + ·)`; if the key is not already present in the
mapping, push the entry onto the priority queue; finally insert (replace) the entry
in the mapping. -/
def Shard.set (s : Shard) (key value : String) (ttl : Option Nat) (now : Nat) : Shard :=
  let item : CacheItem := ⟨key, value, ttl.map (fun d => now + d)⟩
  let pq := if (s.items key).isNone then heapPush s.pq item else s.pq
  ⟨pq, insertItem s.items key item⟩

/-- Model of `Shard::get` (src/cache.rs lines 66-73): look up the mapping; an entry with
`expiration_time = some expiry` is returned only while `expiry > now`, an entry with
no expiration is always returned. The shard state is not touched. -/
def Shard.get (s : Shard) (key : String) (now : Nat) : Option String :=
  (s.items key).bind fun item =>
    match item.expiration_time with
    | some expiry => if now < expiry then some item.value else none
    | none => some item.value

/-- One iteration of the sweeper's peek loop (src/cache.rs lines 106-137) at the
pass's fixed instant `now`. `none` means the loop breaks: the heap is empty, the
peeked root has no expiration, or the peeked root is not yet due. Otherwise the root
is popped and reconciled against the mapping exactly as in the source: a missing key
is discarded; a present entry is removed from the mapping and then re-inserted
(together with a fresh heap push) only when it carries a finite, not-yet-due
expiration — the branch for a present entry with `expiration_time = none` falls off
the `if let Some(expiry)` and the removed binding is not restored. -/
def sweepStep (now : Nat) (s : Shard) : Option Shard :=
  match heapPeek s.pq with
  | none => none
  | some item =>
    match item.expiration_time with
    | none => none
    | some expiry =>
      if now < expiry then none
      else
        match heapPop s.pq with
        | none => some s
        | some (popped, pq') =>
          match s.items popped.key with
          | none => some ⟨pq', s.items⟩
          | some cur =>
            let items' := removeItem s.items popped.key
            match cur.expiration_time with
            | some e =>
              if now < e then some ⟨heapPush pq' cur, insertItem items' cur.key cur⟩
              else some ⟨pq', items'⟩
            | none => some ⟨pq', items'⟩

/-- The sweeper's peek loop with explicit fuel: `none` means the fuel ran out before
a break condition was reached; `some s'` means the loop broke with final state `s'`.
The termination theorem below shows `dueCount now s.pq + 1` fuel always suffices. -/
def sweepRun (now : Nat) : Nat → Shard → Option Shard
  | 0, _ => none
  | fuel + 1, s =>
    match sweepStep now s with
    | none => some s
    | some s' => sweepRun now fuel s'

/-- Whether a record is due at instant `now`: it carries a finite expiration that is
not after `now`. These are exactly the records the sweep loop's pop guard accepts. -/
def isDue (now : Nat) (it : CacheItem) : Bool :=
  match it.expiration_time with
  | some e => decide (e ≤ now)
  | none => false

/-- Number of heap records that are due at instant `now`. This is the quantity each
productive sweep iteration strictly decreases. -/
def dueCount (now : Nat) (l : List CacheItem) : Nat :=
  l.countP (isDue now)

/-- The cache façade, mirroring `struct Cache`: the vector of shards. The sweeper
threads spawned in `Cache::new` are modelled by applying `sweepRun` to a shard; the
shutdown channels carry no cache state. -/
structure Cache where
  shards : List Shard

/-- Model of `hash_for_key` (src/cache.rs lines 158-162): the 64-bit FNV-1a hash of the key's
UTF-8 bytes, as computed by `fnv::FnvHasher` — start from the offset basis, and for
each byte XOR it in and multiply by the FNV prime modulo `2 ^ 64`. -/
def hash_for_key (key : String) : Nat :=
  key.toUTF8.toList.foldl
    (fun h b => ((h ^^^ b.toNat) * 0x100000001b3) % 2 ^ 64)
    0xcbf29ce484222325

/-- Model of `shard_from_key` (src/cache.rs lines 163-165): the hash reduced modulo the shard
count. Rust's `%` on `u64` panics when the divisor is zero, modelled as `none`. -/
def shard_from_key (key : String) (shards : Nat) : Option Nat :=
  if shards = 0 then none else some (hash_for_key key % shards)

/-- Model of `Cache::new` (src/cache.rs lines 84-145): builds `number_of_shards` fresh shards
(and spawns one sweeper per shard, modelled elsewhere). There is no validation of the
shard count and no failure path: the constructor is total. -/
def Cache.new (numberOfShards : Nat) : Cache :=
  ⟨List.replicate numberOfShards Shard.new⟩

/-- Model of `Cache::get` (src/cache.rs lines 147-150): route via `shard_from_key` and delegate
to the shard. `Except.error` models the divide-by-zero panic when the cache holds zero
shards; otherwise the routed index is `hash % length < length`, so the list read is in
range and `getD`'s default is never consulted. -/
def Cache.get (c : Cache) (key : String) (now : Nat) : Except Unit (Option String) :=
  match shard_from_key key c.shards.length with
  | none => .error ()
  | some i => .ok ((c.shards.getD i Shard.new).get key now)

/-- Model of `Cache::set` (src/cache.rs lines 152-155): route via `shard_from_key` and delegate
to the shard, replacing that shard in the vector. `Except.error` models the
divide-by-zero panic when the cache holds zero shards. -/
def Cache.set (c : Cache) (key value : String) (ttl : Option Nat) (now : Nat) :
    Except Unit Cache :=
  match shard_from_key key c.shards.length with
  | none => .error ()
  | some i => .ok ⟨c.shards.set i ((c.shards.getD i Shard.new).set key value ttl now)⟩

/-- The three operations a shard serves: a write, a read, and one sweeper pass. -/
inductive ShardOp where
  | setOp (key value : String) (ttl : Option Nat)
  | getOp (key : String)
  | sweepOp

/-- Execute one operation against a shard at instant `now`, returning the successor
state and the read result. `Shard::get` borrows the shard immutably in the source, so
the successor state of a read is the input state itself. The sweep uses the fuel bound
proved sufficient by the termination theorem. -/
def runOp (s : Shard) (now : Nat) : ShardOp → Shard × Option String
  | .setOp k v ttl => (s.set k v ttl now, none)
  | .getOp k => (s, s.get k now)
  | .sweepOp => ((sweepRun now (dueCount now s.pq + 1) s).getD s, none)

/-! ### Helper lemmas about the heap operations -/

theorem swapL_length (l : List CacheItem) (i j : Nat) : (swapL l i j).length = l.length := by
  simp [swapL]

theorem getI_eq_getElem (l : List CacheItem) (i : Nat) (h : i < l.length) :
    getI l i = l[i] := by
  simp [getI, List.getD_eq_getElem?_getD, List.getElem?_eq_getElem h]

theorem countP_set_getI (p : CacheItem → Bool) (l : List CacheItem) (i : Nat)
    (a : CacheItem) (h : i < l.length) :
    (l.set i a).countP p + (if p (getI l i) then 1 else 0)
      = l.countP p + (if p a then 1 else 0) := by
  induction l generalizing i with
  | nil => simp at h
  | cons x xs ih =>
    cases i with
    | zero =>
      simp only [List.set_cons_zero, List.countP_cons, getI, List.getD_cons_zero]
      omega
    | succ n =>
      have hn : n < xs.length := by simpa using h
      have := ih n hn
      simp only [List.set_cons_succ, List.countP_cons, getI, List.getD_cons_succ] at this ⊢
      omega

theorem getI_set (l : List CacheItem) (i j : Nat) (a : CacheItem) (hj : j < l.length) :
    getI (l.set i a) j = if i = j then a else getI l j := by
  have hj' : j < (l.set i a).length := by simpa using hj
  rw [getI_eq_getElem _ j hj', List.getElem_set, getI_eq_getElem l j hj]

theorem countP_swapL (p : CacheItem → Bool) (l : List CacheItem) (i j : Nat)
    (hi : i < l.length) (hj : j < l.length) :
    (swapL l i j).countP p = l.countP p := by
  have h1 := countP_set_getI p l i (getI l j) hi
  have h2 := countP_set_getI p (l.set i (getI l j)) j (getI l i) (by simpa using hj)
  have hg : getI (l.set i (getI l j)) j = getI l j := by
    rw [getI_set l i j _ hj]
    split <;> rfl
  rw [hg] at h2
  rw [swapL]
  omega

theorem siftUpFrom_length (l : List CacheItem) (start pos : Nat) :
    (siftUpFrom l start pos).length = l.length := by
  induction pos using Nat.strong_induction_on generalizing l with
  | _ pos ih =>
    rw [siftUpFrom]
    split
    · split
      · rw [ih _ (by omega), swapL_length]
      · rfl
    · rfl

theorem siftUpFrom_countP (p : CacheItem → Bool) (l : List CacheItem) (start pos : Nat)
    (h : pos < l.length) :
    (siftUpFrom l start pos).countP p = l.countP p := by
  induction pos using Nat.strong_induction_on generalizing l with
  | _ pos ih =>
    rw [siftUpFrom]
    split
    · split
      · have hpar : (pos - 1) / 2 < l.length := by omega
        rw [ih _ (by omega) _ (by rw [swapL_length]; omega),
          countP_swapL p l pos _ h hpar]
      · rfl
    · rfl

theorem chooseChild_bounds (l : List CacheItem) (pos : Nat) :
    pos < chooseChild l pos ∧ chooseChild l pos ≤ 2 * pos + 2 := by
  rw [chooseChild]; split <;> omega

theorem siftToBottom_spec (p : CacheItem → Bool) (l : List CacheItem) (pos : Nat)
    (h : pos < l.length) :
    (siftToBottom l pos).1.length = l.length ∧ (siftToBottom l pos).2 < l.length ∧
      (siftToBottom l pos).1.countP p = l.countP p := by
  suffices H : ∀ n (l : List CacheItem) (pos : Nat), l.length - pos = n →
      pos < l.length →
      (siftToBottom l pos).1.length = l.length ∧ (siftToBottom l pos).2 < l.length ∧
        (siftToBottom l pos).1.countP p = l.countP p from H _ l pos rfl h
  intro n
  induction n using Nat.strong_induction_on with
  | _ n ih =>
    intro l pos hn h
    rw [siftToBottom]
    split
    · rename_i hchild
      obtain ⟨hcp, hcb⟩ := chooseChild_bounds l pos
      have hcl : chooseChild l pos < l.length := by omega
      have hlen : (swapL l pos (chooseChild l pos)).length = l.length :=
        swapL_length l pos _
      have := ih ((swapL l pos (chooseChild l pos)).length - chooseChild l pos)
        (by omega) (swapL l pos (chooseChild l pos)) (chooseChild l pos) rfl (by omega)
      refine ⟨?_, ?_, ?_⟩
      · rw [this.1, hlen]
      · rw [← hlen]; exact this.2.1
      · rw [this.2.2, countP_swapL p l pos _ h hcl]
    · split
      · refine ⟨swapL_length l pos _, by omega, countP_swapL p l pos _ h (by omega)⟩
      · exact ⟨rfl, h, rfl⟩

theorem siftDownToBottom_length (l : List CacheItem) (pos : Nat) (h : pos < l.length) :
    (siftDownToBottom l pos).length = l.length := by
  rw [siftDownToBottom, siftUpFrom_length, (siftToBottom_spec (fun _ => true) l pos h).1]

theorem siftDownToBottom_countP (p : CacheItem → Bool) (l : List CacheItem) (pos : Nat)
    (h : pos < l.length) :
    (siftDownToBottom l pos).countP p = l.countP p := by
  obtain ⟨h1, h2, h3⟩ := siftToBottom_spec p l pos h
  rw [siftDownToBottom, siftUpFrom_countP p _ _ _ (by rw [h1]; exact h2), h3]

theorem heapPush_countP (p : CacheItem → Bool) (l : List CacheItem) (x : CacheItem) :
    (heapPush l x).countP p = l.countP p + (if p x then 1 else 0) := by
  rw [heapPush, siftUpFrom_countP p _ _ _ (by simp), List.countP_append]
  simp [List.countP_cons]

theorem heapPop_eq_none (l : List CacheItem) : heapPop l = none ↔ l = [] := by
  rcases List.eq_nil_or_concat l with rfl | ⟨init, last, rfl⟩
  · simp [heapPop]
  · rw [List.concat_eq_append, heapPop, List.getLast?_concat, List.dropLast_concat]
    cases init <;> simp

theorem heapPop_spec (p : CacheItem → Bool) (l : List CacheItem) (x : CacheItem)
    (l' : List CacheItem) (h : heapPop l = some (x, l')) :
    l.head? = some x ∧ l'.countP p + (if p x then 1 else 0) = l.countP p := by
  rcases List.eq_nil_or_concat l with rfl | ⟨init, last, rfl⟩
  · simp [heapPop] at h
  · rw [List.concat_eq_append] at *
    rw [heapPop, List.getLast?_concat, List.dropLast_concat] at h
    cases init with
    | nil =>
      simp only [Option.some.injEq, Prod.mk.injEq] at h
      obtain ⟨hx, hl'⟩ := h
      subst hx
      subst hl'
      simp [List.countP_cons]
    | cons r0 tl =>
      simp only [Option.some.injEq, Prod.mk.injEq] at h
      obtain ⟨hx, hl'⟩ := h
      subst hx
      subst hl'
      refine ⟨by simp, ?_⟩
      rw [siftDownToBottom_countP p _ 0 (by simp)]
      have hc : ((r0 :: tl).set 0 last).countP p = (last :: tl).countP p := rfl
      rw [hc, List.countP_append]
      simp only [List.countP_cons, List.countP_nil]
      omega

/-! ### Helper lemmas about the sweep loop -/

/-- Case analysis of a productive sweep iteration: the loop did not break, so the
peeked root carries a due finite expiration, it is popped, and the mapping is
reconciled by one of the four source branches. -/
theorem sweepStep_inv (now : Nat) (s s' : Shard) (h : sweepStep now s = some s') :
    ∃ item expiry popped pq',
      heapPeek s.pq = some item ∧ item.expiration_time = some expiry ∧ expiry ≤ now ∧
      heapPop s.pq = some (popped, pq') ∧
      ((s.items popped.key = none ∧ s' = ⟨pq', s.items⟩) ∨
        (∃ cur e, s.items popped.key = some cur ∧ cur.expiration_time = some e ∧ now < e ∧
          s' = ⟨heapPush pq' cur, insertItem (removeItem s.items popped.key) cur.key cur⟩) ∨
        (∃ cur e, s.items popped.key = some cur ∧ cur.expiration_time = some e ∧ e ≤ now ∧
          s' = ⟨pq', removeItem s.items popped.key⟩) ∨
        (∃ cur, s.items popped.key = some cur ∧ cur.expiration_time = none ∧
          s' = ⟨pq', removeItem s.items popped.key⟩)) := by
  rw [sweepStep] at h
  split at h
  · exact absurd h (by simp)
  · rename_i item hpeek
    split at h
    · exact absurd h (by simp)
    · rename_i expiry hexp
      split at h
      · exact absurd h (by simp)
      · rename_i hlt
        split at h
        · rename_i hpop
          exfalso
          rw [heapPop_eq_none] at hpop
          rw [hpop] at hpeek
          exact absurd hpeek (by simp [heapPeek])
        · rename_i pr popped pq' hpop
          refine ⟨item, expiry, popped, pq', hpeek, hexp, by omega, hpop, ?_⟩
          split at h
          · rename_i hcur
            exact Or.inl ⟨hcur, (Option.some.inj h).symm⟩
          · rename_i cur hcur
            split at h
            · rename_i e he
              split at h
              · rename_i hnow
                exact Or.inr (Or.inl ⟨cur, e, hcur, he, hnow, (Option.some.inj h).symm⟩)
              · rename_i hnow
                exact Or.inr (Or.inr (Or.inl ⟨cur, e, hcur, he, by omega,
                  (Option.some.inj h).symm⟩))
            · rename_i he
              exact Or.inr (Or.inr (Or.inr ⟨cur, hcur, he, (Option.some.inj h).symm⟩))

/-- A productive sweep iteration strictly decreases the number of due heap records:
the popped root is due, and the only record ever pushed back is not yet due. -/
theorem sweepStep_dueCount (now : Nat) (s s' : Shard) (h : sweepStep now s = some s') :
    dueCount now s'.pq < dueCount now s.pq := by
  obtain ⟨item, expiry, popped, pq', hpeek, hexp, hle, hpop, hcase⟩ := sweepStep_inv now s s' h
  obtain ⟨hhead, hcount⟩ := heapPop_spec (isDue now) s.pq popped pq' hpop
  have hip : popped = item := by
    rw [heapPeek] at hpeek
    rw [hpeek] at hhead
    exact (Option.some.inj hhead).symm
  have hdue : isDue now popped = true := by
    rw [hip, isDue, hexp]
    simpa using hle
  have hcount' : pq'.countP (isDue now) + 1 = s.pq.countP (isDue now) := by
    simpa [hdue] using hcount
  rcases hcase with ⟨hcur, rfl⟩ | ⟨cur, e, hcur, he, hnow, rfl⟩ |
      ⟨cur, e, hcur, he, hnow, rfl⟩ | ⟨cur, hcur, he, rfl⟩
  · simp only [dueCount]
    omega
  · have hnotdue : isDue now cur = false := by
      rw [isDue, he]
      simpa using hnow
    simp only [dueCount]
    rw [heapPush_countP (isDue now) pq' cur, hnotdue]
    simp only [Bool.false_eq_true, if_false, add_zero]
    omega
  · simp only [dueCount]
    omega
  · simp only [dueCount]
    omega

/-- Fuel of `dueCount + 1` always suffices: the sweep loop reaches a break condition. -/
theorem sweepRun_some (now fuel : Nat) (s : Shard) (h : dueCount now s.pq < fuel) :
    ∃ s', sweepRun now fuel s = some s' := by
  induction fuel generalizing s with
  | zero => omega
  | succ n ih =>
    rw [sweepRun]
    cases hs : sweepStep now s with
    | none => exact ⟨s, rfl⟩
    | some s2 =>
      have hd := sweepStep_dueCount now s s2 hs
      exact ih s2 (by omega)

/-- Well-formedness of the mapping: every stored entry records the key it is bound
to. `Shard::set` establishes this and every operation preserves it. -/
def ItemsWF (m : ItemsMap) : Prop := ∀ k it, m k = some it → it.key = k

theorem ItemsWF_empty : ItemsWF emptyItems := by
  intro k it h
  exact absurd h (by simp [emptyItems])

theorem ItemsWF_insert (m : ItemsMap) (k : String) (v : CacheItem) (h : ItemsWF m)
    (hv : v.key = k) : ItemsWF (insertItem m k v) := by
  intro k' it h'
  rw [insertItem] at h'
  by_cases hk : k' = k
  · rw [if_pos hk] at h'
    rw [← Option.some.inj h', hv, hk]
  · rw [if_neg hk] at h'
    exact h k' it h'

theorem ItemsWF_remove (m : ItemsMap) (k : String) (h : ItemsWF m) :
    ItemsWF (removeItem m k) := by
  intro k' it h'
  rw [removeItem] at h'
  by_cases hk : k' = k
  · rw [if_pos hk] at h'
    exact absurd h' (by simp)
  · rw [if_neg hk] at h'
    exact h k' it h'

theorem Shard.set_WF (s : Shard) (key value : String) (ttl : Option Nat) (now : Nat)
    (h : ItemsWF s.items) : ItemsWF (s.set key value ttl now).items :=
  ItemsWF_insert s.items key _ h rfl

theorem sweepStep_WF (now : Nat) (s s' : Shard) (hWF : ItemsWF s.items)
    (h : sweepStep now s = some s') : ItemsWF s'.items := by
  obtain ⟨item, expiry, popped, pq', hpeek, hexp, hle, hpop, hcase⟩ := sweepStep_inv now s s' h
  rcases hcase with ⟨hcur, rfl⟩ | ⟨cur, e, hcur, he, hnow, rfl⟩ |
      ⟨cur, e, hcur, he, hnow, rfl⟩ | ⟨cur, hcur, he, rfl⟩
  · exact hWF
  · exact ItemsWF_insert _ cur.key cur (ItemsWF_remove _ _ hWF) rfl
  · exact ItemsWF_remove _ _ hWF
  · exact ItemsWF_remove _ _ hWF

/-- A productive sweep iteration never rebinds a key to a different entry: every
binding is either untouched or removed. -/
theorem sweepStep_items (now : Nat) (s s' : Shard) (hWF : ItemsWF s.items)
    (h : sweepStep now s = some s') (k : String) :
    s'.items k = s.items k ∨ s'.items k = none := by
  obtain ⟨item, expiry, popped, pq', hpeek, hexp, hle, hpop, hcase⟩ := sweepStep_inv now s s' h
  rcases hcase with ⟨hcur, rfl⟩ | ⟨cur, e, hcur, he, hnow, rfl⟩ |
      ⟨cur, e, hcur, he, hnow, rfl⟩ | ⟨cur, hcur, he, rfl⟩
  · exact Or.inl rfl
  · left
    have hk : cur.key = popped.key := hWF popped.key cur hcur
    show insertItem (removeItem s.items popped.key) cur.key cur k = s.items k
    by_cases hkey : k = popped.key
    · rw [insertItem, if_pos (by rw [hk, hkey]), hkey, hcur]
    · rw [insertItem, if_neg (by rw [hk]; exact hkey), removeItem, if_neg hkey]
  · by_cases hkey : k = popped.key
    · exact Or.inr (by show removeItem _ _ _ = none; rw [removeItem, if_pos hkey])
    · exact Or.inl (by show removeItem _ _ _ = s.items k; rw [removeItem, if_neg hkey])
  · by_cases hkey : k = popped.key
    · exact Or.inr (by show removeItem _ _ _ = none; rw [removeItem, if_pos hkey])
    · exact Or.inl (by show removeItem _ _ _ = s.items k; rw [removeItem, if_neg hkey])

theorem sweepRun_WF (now fuel : Nat) (s s' : Shard) (hWF : ItemsWF s.items)
    (h : sweepRun now fuel s = some s') : ItemsWF s'.items := by
  induction fuel generalizing s with
  | zero => exact absurd h (by simp [sweepRun])
  | succ n ih =>
    rw [sweepRun] at h
    cases hs : sweepStep now s with
    | none =>
      rw [hs] at h
      rw [← Option.some.inj h]
      exact hWF
    | some s2 =>
      rw [hs] at h
      exact ih s2 (sweepStep_WF now s s2 hWF hs) h

/-- Across a whole sweep pass, every binding is either untouched or removed. -/
theorem sweepRun_items (now fuel : Nat) (s s' : Shard) (hWF : ItemsWF s.items)
    (h : sweepRun now fuel s = some s') (k : String) :
    s'.items k = s.items k ∨ s'.items k = none := by
  induction fuel generalizing s with
  | zero => exact absurd h (by simp [sweepRun])
  | succ n ih =>
    rw [sweepRun] at h
    cases hs : sweepStep now s with
    | none =>
      rw [hs] at h
      rw [← Option.some.inj h]
      exact Or.inl rfl
    | some s2 =>
      rw [hs] at h
      rcases ih s2 (sweepStep_WF now s s2 hWF hs) h with h2 | h2
      · rw [h2]
        exact sweepStep_items now s s2 hWF hs k
      · exact Or.inr h2

/-! ### Small evaluation helpers -/

theorem siftUpFrom_self (l : List CacheItem) (start : Nat) : siftUpFrom l start start = l := by
  rw [siftUpFrom]
  simp

theorem heapPush_nil (x : CacheItem) : heapPush [] x = [x] := by
  rw [heapPush]
  exact siftUpFrom_self [x] 0

theorem insertItem_self (m : ItemsMap) (k : String) (v : CacheItem) :
    insertItem m k v k = some v := by
  simp [insertItem]

theorem insertItem_other (m : ItemsMap) (k k' : String) (v : CacheItem) (h : k' ≠ k) :
    insertItem m k v k' = m k' := by
  simp [insertItem, h]

/-- Number of heap records bound to a given key. -/
def keyCount (k : String) (l : List CacheItem) : Nat :=
  l.countP fun it => it.key = k

/-- Repeated `Shard::set` with identical arguments, starting from a fresh shard:
`iterateSet k v ttl now n` performs `n + 1` identical sets. -/
def iterateSet (k v : String) (ttl : Option Nat) (now : Nat) : Nat → Shard
  | 0 => Shard.new.set k v ttl now
  | n + 1 => (iterateSet k v ttl now n).set k v ttl now

theorem foldl_hash_lt (bs : List UInt8) (acc : Nat) (h : acc < 2 ^ 64) :
    bs.foldl (fun h b => ((h ^^^ b.toNat) * 0x100000001b3) % 2 ^ 64) acc < 2 ^ 64 := by
  induction bs generalizing acc with
  | nil => exact h
  | cons b t ih => exact ih _ (Nat.mod_lt _ (by norm_num))

theorem hash_for_key_lt (k : String) : hash_for_key k < 2 ^ 64 :=
  foldl_hash_lt _ _ (by norm_num)

/-! ### The claims -/

/-- C1: the claim states that a stale TTL-bearing heap record never causes the sweeper
to remove a mapping entry whose current `expires_at` is `none`. The code violates
this: set `k` to `"v1"` with a 1-tick TTL at instant 0, refresh `k` to `"v2"` with no
TTL at instant 0, then run one sweeper pass at instant 1. The pass pops the stale
heap record, removes the mapping entry, and — because the current entry's
`expiration_time` is `none` — falls off the `if let Some(expiry)` without restoring
it: afterwards the key is gone from the mapping and `get` returns `none` instead of
the last-set value `"v2"`. -/
theorem C1_sweep_drops_refreshed_no_ttl_entry :
    (sweepRun 1 2 ((Shard.new.set "k" "v1" (some 1) 0).set "k" "v2" none 0)).map
      (fun s' => (s'.get "k" 1, s'.items "k")) = some (none, none) := by
  simp [Shard.set, Shard.get, Shard.new, sweepRun, sweepStep, heapPush_nil, heapPeek,
    heapPop, insertItem, removeItem, emptyItems, siftDownToBottom]

/-- C2: a key set with `ttl = some d` at instant `t0` is visible to `get` exactly at
instants strictly before `t0 + d` and invisible from `t0 + d` on, decided solely by
comparing the entry's `expires_at` with the instant of the `get`; and after any
completed sweep pass the key is still invisible at or after the deadline. -/
theorem C2_expiry_visibility (s : Shard) (k v : String) (d t0 t : Nat) :
    ((s.set k v (some d) t0).get k t = if t < t0 + d then some v else none) ∧
    (∀ now fuel s', ItemsWF s.items →
      sweepRun now fuel (s.set k v (some d) t0) = some s' →
      t0 + d ≤ t → s'.get k t = none) := by
  constructor
  · simp [Shard.set, Shard.get, insertItem]
  · intro now fuel s' hWF hrun ht
    have hWF2 : ItemsWF (s.set k v (some d) t0).items := Shard.set_WF s k v (some d) t0 hWF
    have hlook : (s.set k v (some d) t0).items k = some ⟨k, v, some (t0 + d)⟩ := by
      simp [Shard.set, insertItem]
    rcases sweepRun_items now fuel _ s' hWF2 hrun k with h2 | h2
    · rw [Shard.get, h2, hlook]
      simp [Nat.not_lt.mpr ht]
    · rw [Shard.get, h2]
      rfl

theorem C2_expiry_visibility_witness :
    ((Shard.new.set "a" "x" (some 2) 0).get "a" 1 = if 1 < 0 + 2 then some "x" else none) ∧
    (sweepRun 3 2 (Shard.new.set "a" "x" (some 2) 0)).map (fun s' => s'.get "a" 5)
      = some none := by
  constructor
  · exact (C2_expiry_visibility Shard.new "a" "x" 2 0 1).1
  · have hdue : dueCount 3 (Shard.new.set "a" "x" (some 2) 0).pq < 2 := by
      simp [Shard.set, Shard.new, heapPush_nil, emptyItems, dueCount, isDue,
        List.countP_cons]
    obtain ⟨s', hs'⟩ := sweepRun_some 3 2 _ hdue
    rw [hs', Option.map_some']
    exact congrArg some
      ((C2_expiry_visibility Shard.new "a" "x" 2 0 5).2 3 2 s' ItemsWF_empty hs' (by omega))

/-- C3 counterexample: construction with `shard_count = 0` does not fail — `Cache::new`
performs no validation and returns a cache with zero shards — and the failure instead
surfaces at runtime: the first `get` or `set` on that cache panics (remainder by
zero in the shard router), contradicting the claim that the failure is raised
synchronously at construction time and that `get`/`set` never fail on a successfully
constructed cache. -/
theorem C3_zero_shards_fails_at_runtime :
    (Cache.new 0).shards.length = 0 ∧
    Cache.get (Cache.new 0) "a" 0 = .error () ∧
    Cache.set (Cache.new 0) "a" "x" none 0 = .error () := by
  refine ⟨rfl, ?_, ?_⟩ <;> rfl

/-- C3 amended: `Cache::new` is total — it never fails, performs no validation, and
returns exactly the requested number of shards (zero included); for every cache that
holds at least one shard, `get` and `set` always succeed (absence is the normal
`none` result, not a failure). The zero-shard failure is a runtime panic at the first
`get`/`set`, shown by the counterexample theorem. -/
theorem C3_construction_semantics (n : Nat) (c : Cache) (k v : String) (ttl : Option Nat)
    (now : Nat) (h : 0 < c.shards.length) :
    (Cache.new n).shards.length = n ∧
    (Cache.get c k now).isOk = true ∧
    (Cache.set c k v ttl now).isOk = true := by
  have hsfk : shard_from_key k c.shards.length
      = some (hash_for_key k % c.shards.length) := by
    rw [shard_from_key, if_neg (by omega)]
  refine ⟨by simp [Cache.new], ?_, ?_⟩
  · rw [Cache.get, hsfk]
    rfl
  · rw [Cache.set, hsfk]
    rfl

theorem C3_construction_semantics_witness :
    (Cache.new 5).shards.length = 5 ∧ (Cache.get (Cache.new 3) "a" 0).isOk = true := by
  have h := C3_construction_semantics 5 (Cache.new 3) "a" "x" none 0 (by simp [Cache.new])
  exact ⟨h.1, h.2.1⟩

/-- C4: refresh survives sweep. Set `k` with a short TTL at `t0`, refresh it with a
longer TTL at `t1`, and run a sweep pass at an instant `now` past the short deadline
but before the long one. The pass pops the stale short-TTL heap record, finds the
refreshed not-yet-due entry in the mapping, re-inserts that entry into the priority
structure, leaves the mapping bound to it, and a `get` before the long deadline
returns the refreshed value. -/
theorem C4_refresh_survives_sweep (k v1 v2 : String) (d1 d2 t0 t1 now t fuel : Nat)
    (s' : Shard) (h1 : t0 + d1 ≤ now) (h2 : now < t1 + d2) (ht : t < t1 + d2)
    (hrun : sweepRun now fuel ((Shard.new.set k v1 (some d1) t0).set k v2 (some d2) t1)
      = some s') :
    s'.items k = some ⟨k, v2, some (t1 + d2)⟩ ∧
    (⟨k, v2, some (t1 + d2)⟩ : CacheItem) ∈ s'.pq ∧
    s'.get k t = some v2 := by
  have hnle : ¬ now < t0 + d1 := by omega
  have hstep : sweepStep now ((Shard.new.set k v1 (some d1) t0).set k v2 (some d2) t1)
      = some ⟨[⟨k, v2, some (t1 + d2)⟩],
          insertItem (removeItem (insertItem (insertItem emptyItems k
            ⟨k, v1, some (t0 + d1)⟩) k ⟨k, v2, some (t1 + d2)⟩) k) k
            ⟨k, v2, some (t1 + d2)⟩⟩ := by
    simp [Shard.set, Shard.new, sweepStep, heapPeek, heapPop, heapPush_nil, emptyItems,
      insertItem, removeItem, hnle, h2]
  have hstop : sweepStep now (⟨[⟨k, v2, some (t1 + d2)⟩],
      insertItem (removeItem (insertItem (insertItem emptyItems k
        ⟨k, v1, some (t0 + d1)⟩) k ⟨k, v2, some (t1 + d2)⟩) k) k
        ⟨k, v2, some (t1 + d2)⟩⟩ : Shard) = none := by
    simp [sweepStep, heapPeek, h2]
  have hs' : s' = ⟨[⟨k, v2, some (t1 + d2)⟩],
      insertItem (removeItem (insertItem (insertItem emptyItems k
        ⟨k, v1, some (t0 + d1)⟩) k ⟨k, v2, some (t1 + d2)⟩) k) k
        ⟨k, v2, some (t1 + d2)⟩⟩ := by
    cases fuel with
    | zero => exact absurd hrun (by simp [sweepRun])
    | succ m =>
      simp only [sweepRun, hstep] at hrun
      cases m with
      | zero => exact absurd hrun (by simp [sweepRun])
      | succ m2 =>
        simp only [sweepRun, hstop] at hrun
        exact (Option.some.inj hrun).symm
  subst hs'
  refine ⟨?_, ?_, ?_⟩
  · exact insertItem_self _ k _
  · simp
  · simp [Shard.get, insertItem, ht]

theorem C4_refresh_survives_sweep_witness :
    (sweepRun 5 2 ((Shard.new.set "k" "a" (some 1) 0).set "k" "b" (some 10) 0)).map
      (fun s' => s'.get "k" 7) = some (some "b") := by
  have hdue : dueCount 5 ((Shard.new.set "k" "a" (some 1) 0).set "k" "b" (some 10) 0).pq
      < 2 := by
    simp [Shard.set, Shard.new, heapPush_nil, emptyItems, insertItem, dueCount, isDue,
      List.countP_cons]
  obtain ⟨s', hs'⟩ := sweepRun_some 5 2 _ hdue
  rw [hs', Option.map_some']
  exact congrArg some
    (C4_refresh_survives_sweep "k" "a" "b" 1 10 0 0 5 7 2 s' (by omega) (by omega)
      (by omega) hs').2.2

/-- C5 counterexample: the hand-written comparison is not a total order. An entry
without expiration compares `Less` than an entry with one in both argument orders,
and even compares `Less` than itself, violating the antisymmetry and reflexivity any
total order requires. -/
theorem C5_cmp_not_total_order :
    CacheItem.cmp ⟨"a", "x", none⟩ ⟨"b", "y", some 5⟩ = .lt ∧
    CacheItem.cmp ⟨"b", "y", some 5⟩ ⟨"a", "x", none⟩ = .lt ∧
    CacheItem.cmp ⟨"a", "x", none⟩ ⟨"a", "x", none⟩ = .lt := by
  refine ⟨?_, ?_, ?_⟩ <;> simp [CacheItem.cmp, optionCmp]

/-- C5 amended: the comparison is not a total order. Whenever the left entry has
`expires_at = none` the answer is `Less` — regardless of the right entry, so
no-expiration entries are not consistently ordered first. Restricted to two entries
that both carry finite expirations, the comparison is the reverse of the natural
order on expiration instants, which is what makes the max-heap behave as a min-heap
on `expires_at` over such entries. -/
theorem C5_cmp_characterization (a b : CacheItem) (ea eb : Nat) :
    (a.expiration_time = none → CacheItem.cmp a b = .lt) ∧
    (a.expiration_time = some ea → b.expiration_time = some eb →
      CacheItem.cmp a b = compare eb ea) := by
  constructor
  · intro h
    rw [CacheItem.cmp, if_pos h]
  · intro ha hb
    rw [CacheItem.cmp, if_neg (by rw [ha]; simp), ha, hb]
    rfl

theorem C5_cmp_characterization_witness :
    CacheItem.cmp ⟨"a", "x", none⟩ ⟨"b", "y", some 7⟩ = .lt ∧
    CacheItem.cmp ⟨"c", "z", some 3⟩ ⟨"b", "y", some 7⟩ = compare 7 3 := by
  exact ⟨(C5_cmp_characterization ⟨"a", "x", none⟩ ⟨"b", "y", some 7⟩ 0 0).1 rfl,
    (C5_cmp_characterization ⟨"c", "z", some 3⟩ ⟨"b", "y", some 7⟩ 3 7).2 rfl rfl⟩

/-- C6: the mapping is authoritative. A `set` binds its key to exactly the entry it
builds and touches no other binding; a `get` leaves the whole shard state unchanged;
a complete sweeper pass either removes a key or leaves its binding equal to the same
entry — it never rebinds a key to a stale entry. -/
theorem C6_mapping_authoritative (s : Shard) (now : Nat) (op : ShardOp) (k : String)
    (hWF : ItemsWF s.items) :
    (∀ key value ttl, op = .setOp key value ttl →
      (runOp s now op).1.items key = some ⟨key, value, ttl.map (fun d => now + d)⟩ ∧
      ∀ k', k' ≠ key → (runOp s now op).1.items k' = s.items k') ∧
    (∀ key, op = .getOp key → (runOp s now op).1 = s) ∧
    (op = .sweepOp →
      (runOp s now op).1.items k = s.items k ∨ (runOp s now op).1.items k = none) := by
  refine ⟨?_, ?_, ?_⟩
  · intro key value ttl hop
    subst hop
    exact ⟨insertItem_self _ _ _, fun k' hk' => insertItem_other _ _ _ _ hk'⟩
  · intro key hop
    subst hop
    rfl
  · intro hop
    subst hop
    obtain ⟨s', hs'⟩ := sweepRun_some now (dueCount now s.pq + 1) s (by omega)
    simp only [runOp, hs', Option.getD_some]
    exact sweepRun_items now _ s s' hWF hs' k

theorem C6_mapping_authoritative_witness :
    (runOp Shard.new 4 (.setOp "a" "x" (some 2))).1.items "a" = some ⟨"a", "x", some 6⟩ ∧
    (runOp Shard.new 4 (.getOp "a")).1 = Shard.new ∧
    ((runOp Shard.new 4 .sweepOp).1.items "a" = Shard.new.items "a" ∨
      (runOp Shard.new 4 .sweepOp).1.items "a" = none) := by
  refine ⟨?_, ?_, ?_⟩
  · have h := (C6_mapping_authoritative Shard.new 4 (.setOp "a" "x" (some 2)) "a"
      ItemsWF_empty).1 "a" "x" (some 2) rfl
    simpa using h.1
  · exact (C6_mapping_authoritative Shard.new 4 (.getOp "a") "a" ItemsWF_empty).2.1 "a" rfl
  · exact (C6_mapping_authoritative Shard.new 4 .sweepOp "a" ItemsWF_empty).2.2 rfl

/-- C7: `set` pushes onto the priority structure only when the key is absent from the
mapping — a `set` of a present key leaves the structure entirely unchanged — and
repeated `set` with identical arguments keeps exactly one heap record for the key
while `get` keeps returning the value (always for `ttl = none`, before the deadline
for `ttl = some d`). -/
theorem C7_first_insertion_push (s : Shard) (k v : String) (ttl : Option Nat)
    (now t : Nat) :
    ((s.items k).isNone = false → (s.set k v ttl now).pq = s.pq) ∧
    ((s.items k).isNone = true →
      keyCount k (s.set k v ttl now).pq = keyCount k s.pq + 1) ∧
    (∀ n, keyCount k (iterateSet k v ttl now n).pq = 1 ∧
      (iterateSet k v ttl now n).items k = some ⟨k, v, ttl.map (fun d => now + d)⟩ ∧
      (ttl = none → (iterateSet k v ttl now n).get k t = some v) ∧
      (∀ d, ttl = some d → t < now + d → (iterateSet k v ttl now n).get k t = some v)) := by
  refine ⟨?_, ?_, ?_⟩
  · intro h
    simp [Shard.set, h]
  · intro h
    simp [Shard.set, h, keyCount, heapPush_countP]
  · intro n
    induction n with
    | zero =>
      have hitems : (iterateSet k v ttl now 0).items k
          = some ⟨k, v, ttl.map (fun d => now + d)⟩ := insertItem_self _ _ _
      refine ⟨?_, hitems, ?_, ?_⟩
      · show keyCount k (Shard.new.set k v ttl now).pq = 1
        simp [Shard.set, Shard.new, emptyItems, keyCount, heapPush_nil, List.countP_cons]
      · intro hnone
        subst hnone
        rw [Shard.get, hitems]
        rfl
      · intro d hd htlt
        subst hd
        rw [Shard.get, hitems]
        simp [htlt]
    | succ n ih =>
      obtain ⟨hkc, hitems, _, _⟩ := ih
      have hitems' : (iterateSet k v ttl now (n + 1)).items k
          = some ⟨k, v, ttl.map (fun d => now + d)⟩ := insertItem_self _ _ _
      refine ⟨?_, hitems', ?_, ?_⟩
      · show keyCount k ((iterateSet k v ttl now n).set k v ttl now).pq = 1
        simp only [Shard.set, hitems, Option.isNone_some, Bool.false_eq_true, if_false]
        exact hkc
      · intro hnone
        subst hnone
        rw [Shard.get, hitems']
        rfl
      · intro d hd htlt
        subst hd
        rw [Shard.get, hitems']
        simp [htlt]

theorem C7_first_insertion_push_witness :
    ((Shard.new.set "a" "x" none 0).set "a" "x" none 0).pq
      = (Shard.new.set "a" "x" none 0).pq ∧
    keyCount "a" (iterateSet "a" "x" none 0 3).pq = 1 ∧
    (iterateSet "a" "x" none 0 3).get "a" 9 = some "x" := by
  have h := C7_first_insertion_push (Shard.new.set "a" "x" none 0) "a" "x" none 0 9
  have h3 := (C7_first_insertion_push Shard.new "a" "x" none 0 9).2.2 3
  exact ⟨h.1 (by simp [Shard.set, insertItem]), h3.1, h3.2.2.1 rfl⟩

/-- C8: `get` never mutates the shard — its successor state is the input state itself,
and even when it finds an entry whose deadline has passed it answers `none` while the
entry stays in the mapping. -/
theorem C8_get_never_mutates (s : Shard) (k : String) (now : Nat) :
    (runOp s now (.getOp k)).1 = s ∧
    (∀ e t, s.items k = some e → e.expiration_time = some t → t ≤ now →
      s.get k now = none ∧ (runOp s now (.getOp k)).1.items k = some e) := by
  refine ⟨rfl, ?_⟩
  intro e t he hexp hle
  constructor
  · rw [Shard.get, he]
    simp [hexp, Nat.not_lt.mpr hle]
  · simpa [runOp] using he

theorem C8_get_never_mutates_witness :
    (Shard.new.set "a" "x" (some 1) 0).get "a" 5 = none ∧
    (runOp (Shard.new.set "a" "x" (some 1) 0) 5 (.getOp "a")).1
      = Shard.new.set "a" "x" (some 1) 0 := by
  have h := C8_get_never_mutates (Shard.new.set "a" "x" (some 1) 0) "a" 5
  have h2 := h.2 ⟨"a", "x", some 1⟩ 1 (by simp [Shard.set, insertItem]) rfl (by omega)
  exact ⟨h2.1, h.1⟩

/-- C9: every sweep pass terminates. With any fuel exceeding the number of due heap
records the peek loop reaches one of its break conditions, because every productive
iteration pops one due record and pushes back at most one record that is not due at
the pass's fixed instant. -/
theorem C9_sweep_pass_terminates (now : Nat) (s : Shard) (fuel : Nat)
    (hfuel : dueCount now s.pq < fuel) :
    (sweepRun now fuel s).isSome = true ∧
    ∀ s', sweepStep now s = some s' → dueCount now s'.pq < dueCount now s.pq := by
  constructor
  · obtain ⟨s', h⟩ := sweepRun_some now fuel s hfuel
    rw [h]
    rfl
  · intro s' h
    exact sweepStep_dueCount now s s' h

theorem C9_sweep_pass_terminates_witness :
    (sweepRun 2 2 (Shard.new.set "a" "x" (some 1) 0)).isSome = true := by
  have hdue : dueCount 2 (Shard.new.set "a" "x" (some 1) 0).pq < 2 := by
    simp [Shard.set, Shard.new, heapPush_nil, emptyItems, dueCount, isDue,
      List.countP_cons]
  exact (C9_sweep_pass_terminates 2 (Shard.new.set "a" "x" (some 1) 0) 2 hdue).1

/-- C10: the key router is a pure function of the key's bytes — a 64-bit FNV-1a hash
of the whole key reduced modulo the shard count — the routed index is always strictly
below the shard count, and `Cache::get` and `Cache::set` route the same key through
exactly that index. -/
theorem C10_key_router (c : Cache) (k v : String) (ttl : Option Nat) (now : Nat)
    (h : 0 < c.shards.length) :
    hash_for_key k < 2 ^ 64 ∧
    shard_from_key k c.shards.length = some (hash_for_key k % c.shards.length) ∧
    hash_for_key k % c.shards.length < c.shards.length ∧
    Cache.get c k now
      = .ok ((c.shards.getD (hash_for_key k % c.shards.length) Shard.new).get k now) ∧
    Cache.set c k v ttl now
      = .ok ⟨c.shards.set (hash_for_key k % c.shards.length)
          ((c.shards.getD (hash_for_key k % c.shards.length) Shard.new).set k v ttl now)⟩ := by
  have hsfk : shard_from_key k c.shards.length
      = some (hash_for_key k % c.shards.length) := by
    rw [shard_from_key, if_neg (by omega)]
  refine ⟨hash_for_key_lt k, hsfk, Nat.mod_lt _ h, ?_, ?_⟩
  · rw [Cache.get, hsfk]
  · rw [Cache.set, hsfk]

theorem C10_key_router_witness :
    shard_from_key "a" (Cache.new 3).shards.length
      = some (hash_for_key "a" % (Cache.new 3).shards.length) ∧
    hash_for_key "a" % (Cache.new 3).shards.length < (Cache.new 3).shards.length := by
  have h := C10_key_router (Cache.new 3) "a" "x" none 0 (by simp [Cache.new])
  exact ⟨h.2.1, h.2.2.1⟩
